import Mathlib

/-!
# Verification of the `dlist` intrusive doubly-linked list (src/dlist.h, src/offset.h)

Shallow embedding of the C sources:

* A machine address is a `Nat`; `0` plays the role of `NULL`.
* `dlist_node_t` is the embedded link pair (`next`, `prev`), exactly as in
  `src/dlist.h` lines 58-61; `dlist_t` is the list handle (`head`, `tail`),
  lines 64-67.
* The node heap is an association list from addresses to link nodes; a store
  shadows earlier bindings.  Dereferencing an unmapped address, a failed
  `assert`, and a `panic` are modelled in an error monad `M`.
* Pointer arithmetic of `src/offset.h` (`GET_CONTAINER`) is 64-bit machine
  arithmetic: subtraction of the field offset modulo `2^64`.
* The `for` loops of `dlist_check` and the folds are compiled with explicit
  fuel; `h.length + 1` bounds any terminating walk, and exhausting the fuel
  (which in C would be an infinite loop over a corrupted list) is an error.
-/

set_option autoImplicit false

namespace DList

/-- Machine address; `0` is `NULL`. -/
abbrev Addr := Nat

/-- C struct `dlist_node_t` (src/dlist.h:58-61): the embedded link pair. -/
structure dlist_node_t where
  next : Addr
  prev : Addr
deriving Repr, DecidableEq

/-- C struct `dlist_t` (src/dlist.h:64-67): the list handle. -/
structure dlist_t where
  head : Addr
  tail : Addr
deriving Repr, DecidableEq

/-- The heap of link nodes: caller-allocated `dlist_node_t` cells addressed
by `Addr`.  A later binding shadows an earlier one. -/
abbrev Heap := List (Addr × dlist_node_t)

/-- Failure modes of the embedded C code. -/
inductive Err where
  /-- The `panic(...)` call from panic.h: aborts the process, does not return. -/
  | fatal (msg : String)
  /-- a failed `assert(...)`: aborts the process. -/
  | assertFailed
  /-- dereference of an address that holds no allocated node (C: UB). -/
  | badDeref
  /-- a walk that exceeds its fuel (C: an infinite loop over a cycle). -/
  | outOfFuel
deriving Repr, DecidableEq

/-- Result monad for the embedded operations. -/
abbrev M (α : Type) := Except Err α

/-- Read the node stored at address `a` (first, i.e. most recent, binding). -/
def heapGet : Heap → Addr → Option dlist_node_t
  | [], _ => none
  | (b, nd) :: rest, a => if a = b then some nd else heapGet rest a

/-- Store node `nd` at address `a` (shadowing any earlier binding). -/
def heapSet (h : Heap) (a : Addr) (nd : dlist_node_t) : Heap :=
  (a, nd) :: h

/-- Dereference `*a`, failing on an unmapped address. -/
def deref (h : Heap) (a : Addr) : M dlist_node_t :=
  match heapGet h a with
  | some nd => .ok nd
  | none => .error .badDeref

/-- C function `dlist_init` (src/dlist.h:143-146): both references become `NULL`. -/
def dlist_init : dlist_t := { head := 0, tail := 0 }

/-- The poison value `0xdeadbeef` written by `dlist_destroy`
(src/dlist.h:154-155). -/
def poisonAddr : Addr := 0xdeadbeef

/-- C function `dlist_destroy` (src/dlist.h:148-156): panics if `head` or `tail` is
non-null, otherwise overwrites both with the poison value. -/
def dlist_destroy (root : dlist_t) : M dlist_t :=
  if root.head ≠ 0 then
    .error (.fatal "dlist_destroy: root->head is non-null\n")
  else if root.tail ≠ 0 then
    .error (.fatal "dlist_destroy: root->head is non-null\n")
  else
    .ok { head := poisonAddr, tail := poisonAddr }

/-- C function `dlist_enqueue` (src/dlist.h:158-171): insert `data` at the front. -/
def dlist_enqueue (h : Heap) (root : dlist_t) (data : Addr) :
    M (Heap × dlist_t) := do
  let nd ← deref h data
  -- data->prev = NULL
  let h1 := heapSet h data { nd with prev := 0 }
  -- dlist_node_t *old_head = root->head; data->next = old_head
  let old_head := root.head
  let h2 := heapSet h1 data { next := old_head, prev := 0 }
  if old_head = 0 then
    -- assert(!root->tail); root->tail = data; root->head = data
    if root.tail ≠ 0 then throw .assertFailed
    else pure (h2, { head := data, tail := data })
  else do
    -- assert(!old_head->prev); old_head->prev = data; root->head = data
    let ohd ← deref h2 old_head
    if ohd.prev ≠ 0 then throw .assertFailed
    else
      let h3 := heapSet h2 old_head { ohd with prev := data }
      pure (h3, { head := data, tail := root.tail })

/-- C function `dlist_pushback` (src/dlist.h:173-186): insert `data` at the back. -/
def dlist_pushback (h : Heap) (root : dlist_t) (data : Addr) :
    M (Heap × dlist_t) := do
  let nd ← deref h data
  -- data->next = NULL
  let h1 := heapSet h data { nd with next := 0 }
  -- dlist_node_t *old_tail = root->tail; data->prev = old_tail
  let old_tail := root.tail
  let h2 := heapSet h1 data { next := 0, prev := old_tail }
  if old_tail = 0 then
    -- assert(!root->head); root->head = data; root->tail = data
    if root.head ≠ 0 then throw .assertFailed
    else pure (h2, { head := data, tail := data })
  else do
    -- assert(!old_tail->next); old_tail->next = data; root->tail = data
    let otl ← deref h2 old_tail
    if otl.next ≠ 0 then throw .assertFailed
    else
      let h3 := heapSet h2 old_tail { otl with next := data }
      pure (h3, { head := root.head, tail := data })

/-- C function `dlist_push` (src/dlist.h:188-190): alias for `dlist_enqueue`. -/
def dlist_push (h : Heap) (root : dlist_t) (data : Addr) :
    M (Heap × dlist_t) :=
  dlist_enqueue h root data

/-- C function `dlist_pop` (src/dlist.h:206-218): remove and return the head
(`0` = `NULL` when empty). -/
def dlist_pop (h : Heap) (root : dlist_t) : M (Addr × Heap × dlist_t) := do
  if root.head = 0 then pure (0, h, root)
  else do
    let retnode := root.head
    let nd ← deref h retnode
    -- root->head = retnode->next
    let newHead := nd.next
    if root.tail = retnode then
      -- root->tail = NULL
      pure (retnode, h, { head := newHead, tail := 0 })
    else do
      -- root->head->prev = NULL
      let hd ← deref h newHead
      let h1 := heapSet h newHead { hd with prev := 0 }
      pure (retnode, h1, { head := newHead, tail := root.tail })

/-- C function `dlist_dequeue` (src/dlist.h:192-204): remove and return the tail
(`0` = `NULL` when empty). -/
def dlist_dequeue (h : Heap) (root : dlist_t) : M (Addr × Heap × dlist_t) := do
  if root.tail = 0 then pure (0, h, root)
  else do
    let retnode := root.tail
    let nd ← deref h retnode
    -- root->tail = retnode->prev
    let newTail := nd.prev
    if root.head = retnode then
      -- root->head = NULL
      pure (retnode, h, { head := 0, tail := newTail })
    else do
      -- root->tail->next = NULL
      let tl ← deref h newTail
      let h1 := heapSet h newTail { tl with next := 0 }
      pure (retnode, h1, { head := root.head, tail := newTail })

/-- C function `dlist_remove` (src/dlist.h:220-233): unlink `data` from the list. -/
def dlist_remove (h : Heap) (root : dlist_t) (data : Addr) :
    M (Heap × dlist_t) := do
  let nd ← deref h data
  let s1 ←
    if nd.prev ≠ 0 then do
      -- data->prev->next = data->next
      let pn ← deref h nd.prev
      pure (heapSet h nd.prev { pn with next := nd.next }, root)
    else
      -- assert(root->head == data); root->head = data->next
      if root.head ≠ data then throw Err.assertFailed
      else pure (h, ({ head := nd.next, tail := root.tail } : dlist_t))
  let h1 := s1.1
  let root1 := s1.2
  -- the second branch re-reads data->next and data->prev
  let nd2 ← deref h1 data
  if nd2.next ≠ 0 then do
    -- data->next->prev = data->prev
    let nn ← deref h1 nd2.next
    pure (heapSet h1 nd2.next { nn with prev := nd2.prev }, root1)
  else
    -- assert(root->tail == data); root->tail = data->prev
    if root1.tail ≠ data then throw Err.assertFailed
    else pure (h1, { head := root1.head, tail := nd2.prev })

/-- C function `dlist_head` (src/dlist.h:235-237): non-removing peek. -/
def dlist_head (root : dlist_t) : Addr := root.head

/-- C function `dlist_tail` (src/dlist.h:239-241): non-removing peek. -/
def dlist_tail (root : dlist_t) : Addr := root.tail

/-- The loop of `dlist_check` (src/dlist.h:246-254), with fuel.  `ptr` is the
cursor, `last` the previously visited node (`0` initially); returns the last
visited node. -/
def checkLoop (h : Heap) : Nat → Addr → Addr → M Addr
  | 0, ptr, last => if ptr = 0 then .ok last else .error .outOfFuel
  | fuel + 1, ptr, last =>
    if ptr = 0 then .ok last
    else do
      let nd ← deref h ptr
      if last = 0 then
        -- assert(ptr->prev == NULL)
        if nd.prev ≠ 0 then throw Err.assertFailed
        else checkLoop h fuel nd.next ptr
      else do
        -- assert(last_ptr->next == ptr); assert(last_ptr == ptr->prev)
        let lnd ← deref h last
        if lnd.next ≠ ptr then throw Err.assertFailed
        else if nd.prev ≠ last then throw Err.assertFailed
        else checkLoop h fuel nd.next ptr

/-- C function `dlist_check` (src/dlist.h:243-256): walk `head → tail` checking the
adjacency invariants, and check that the walk ends at `tail`. -/
def dlist_check (h : Heap) (root : dlist_t) : M Unit := do
  let last ← checkLoop h (h.length + 1) root.head 0
  -- assert(last_ptr == root->tail)
  if last ≠ root.tail then throw Err.assertFailed
  else pure ()

/-! ## The typed layer (`DEFINE_DLIST`, src/dlist.h:73-138, and src/offset.h)

A record of the bound type sitting at address `r` embeds its `dlist_node_t`
field at address `r + ofs`, where `ofs` is the field's byte offset.
`GET_CONTAINER` (src/offset.h:13) recovers the record address by pointer
subtraction, which on a 64-bit machine is arithmetic modulo `2^64`. -/

/-- The constant `2^64`, the size of the address space. -/
def ptrSpace : Nat := 18446744073709551616

/-- Macro `GET_CONTAINER(a, type, name)` (src/offset.h:12-13): subtract the field
offset `ofs` from the link address `a`, modulo `2^64`. -/
def getContainer (ofs a : Nat) : Nat :=
  (a + (ptrSpace - ofs % ptrSpace)) % ptrSpace

/-- Typed wrapper `dlist_##type##_dequeue` (src/dlist.h:96-98): dequeue, then convert the
link address to a record address via `GET_CONTAINER`. -/
def dlist_typed_dequeue (ofs : Nat) (h : Heap) (root : dlist_t) :
    M (Nat × Heap × dlist_t) := do
  let (r, h', root') ← dlist_dequeue h root
  pure (getContainer ofs r, h', root')

/-- Typed wrapper `dlist_##type##_pop` (src/dlist.h:99-101). -/
def dlist_typed_pop (ofs : Nat) (h : Heap) (root : dlist_t) :
    M (Nat × Heap × dlist_t) := do
  let (r, h', root') ← dlist_pop h root
  pure (getContainer ofs r, h', root')

/-- Typed wrapper `dlist_##type##_head` (src/dlist.h:105-107). -/
def dlist_typed_head (ofs : Nat) (root : dlist_t) : Nat :=
  getContainer ofs (dlist_head root)

/-- Typed wrapper `dlist_##type##_tail` (src/dlist.h:108-110). -/
def dlist_typed_tail (ofs : Nat) (root : dlist_t) : Nat :=
  getContainer ofs (dlist_tail root)

/-- The loop of `dlist_##type##_foldr` (src/dlist.h:117-122), with fuel.
The reducer `g` receives the record address (`GET_CONTAINER` of the cursor)
and the accumulator, and returns the new accumulator together with the
termination flag it wrote through `char *terminate`. -/
def foldrLoop {α : Type} (h : Heap) (g : Nat → α → α × Bool) (ofs : Nat) :
    Nat → Addr → α → M α
  | 0, ptr, acc => if ptr = 0 then .ok acc else .error .outOfFuel
  | fuel + 1, ptr, acc =>
    if ptr = 0 then .ok acc
    else
      let r := g (getContainer ofs ptr) acc
      if r.2 then .ok r.1
      else do
        let nd ← deref h ptr
        foldrLoop h g ofs fuel nd.next r.1

/-- The loop of `dlist_##type##_foldl` (src/dlist.h:131-136), with fuel. -/
def foldlLoop {α : Type} (h : Heap) (g : Nat → α → α × Bool) (ofs : Nat) :
    Nat → Addr → α → M α
  | 0, ptr, acc => if ptr = 0 then .ok acc else .error .outOfFuel
  | fuel + 1, ptr, acc =>
    if ptr = 0 then .ok acc
    else
      let r := g (getContainer ofs ptr) acc
      if r.2 then .ok r.1
      else do
        let nd ← deref h ptr
        foldlLoop h g ofs fuel nd.prev r.1

/-- Typed fold `dlist_##type##_foldr` (src/dlist.h:111-124): forward fold from `head`
following `next`. -/
def dlist_typed_foldr {α : Type} (ofs : Nat) (h : Heap) (root : dlist_t)
    (g : Nat → α → α × Bool) (init : α) : M α :=
  foldrLoop h g ofs (h.length + 1) root.head init

/-- Typed fold `dlist_##type##_foldl` (src/dlist.h:125-138): backward fold from `tail`
following `prev`. -/
def dlist_typed_foldl {α : Type} (ofs : Nat) (h : Heap) (root : dlist_t)
    (g : Nat → α → α × Bool) (init : α) : M α :=
  foldlLoop h g ofs (h.length + 1) root.tail init

/-! ## Iterated-operation drivers (test-style compositions of the above) -/

/-- Perform `dlist_pushback` for each address in `as`, in order. -/
def pushbackAll (h : Heap) (root : dlist_t) : List Addr → M (Heap × dlist_t)
  | [] => pure (h, root)
  | a :: as => do
    let (h', root') ← dlist_pushback h root a
    pushbackAll h' root' as

/-- Perform `dlist_enqueue` for each address in `as`, in order. -/
def enqueueAll (h : Heap) (root : dlist_t) : List Addr → M (Heap × dlist_t)
  | [] => pure (h, root)
  | a :: as => do
    let (h', root') ← dlist_enqueue h root a
    enqueueAll h' root' as

/-- Perform `dlist_pop` `n` times, collecting the returned addresses. -/
def popAll (h : Heap) (root : dlist_t) : Nat → M (List Addr × Heap × dlist_t)
  | 0 => pure ([], h, root)
  | n + 1 => do
    let (r, h', root') ← dlist_pop h root
    let (rs, h'', root'') ← popAll h' root' n
    pure (r :: rs, h'', root'')

/-- Perform `dlist_dequeue` `n` times, collecting the returned addresses. -/
def dequeueAll (h : Heap) (root : dlist_t) :
    Nat → M (List Addr × Heap × dlist_t)
  | 0 => pure ([], h, root)
  | n + 1 => do
    let (r, h', root') ← dlist_dequeue h root
    let (rs, h'', root'') ← dequeueAll h' root' n
    pure (r :: rs, h'', root'')

/-! ## List helpers -/

lemma headD_append (l₁ l₂ : List Addr) (d : Addr) :
    (l₁ ++ l₂).headD d = l₁.headD (l₂.headD d) := by
  cases l₁ <;> simp

lemma getLastD_irrel (l : List Addr) (d d' : Addr) (hne : l ≠ []) :
    l.getLastD d = l.getLastD d' := by
  rw [List.getLastD_eq_getLast?, List.getLastD_eq_getLast?,
    List.getLast?_eq_getLast l hne]
  rfl

lemma getLastD_mem : ∀ (l : List Addr) (d : Addr), l ≠ [] → l.getLastD d ∈ l
  | [], _, hne => absurd rfl hne
  | a :: l, d, _ => by
    rcases l with _ | ⟨b, l'⟩
    · simp
    · rw [List.getLastD_cons]
      exact List.mem_cons_of_mem a (getLastD_mem (b :: l') a (by simp))

lemma getLastD_append_right (l₁ : List Addr) {l₂ : List Addr} (d : Addr)
    (hne : l₂ ≠ []) : (l₁ ++ l₂).getLastD d = l₂.getLastD d := by
  induction l₁ generalizing d with
  | nil => rfl
  | cons a l₁ ih =>
    rw [List.cons_append, List.getLastD_cons, ih a]
    exact getLastD_irrel l₂ a d hne

/-! ## Heap lemmas -/

@[simp] lemma heapGet_set_self (h : Heap) (a : Addr) (nd : dlist_node_t) :
    heapGet (heapSet h a nd) a = some nd := by
  simp [heapGet, heapSet]

lemma heapGet_set_ne (h : Heap) {a b : Addr} (nd : dlist_node_t)
    (hne : b ≠ a) : heapGet (heapSet h a nd) b = heapGet h b := by
  simp [heapGet, heapSet, hne]

lemma heapGet_some_mem_keys : ∀ (h : Heap) {a : Addr} {nd : dlist_node_t},
    heapGet h a = some nd → a ∈ h.map Prod.fst
  | [], _, _, hg => by simp [heapGet] at hg
  | (b, nd') :: rest, a, nd, hg => by
    by_cases hab : a = b
    · simp [hab]
    · simp only [heapGet, hab, if_false] at hg
      exact List.mem_cons_of_mem _ (heapGet_some_mem_keys rest hg)

/-! ## The doubly-linked segment predicate

`dlseg h p l n` says that the addresses in `l`, in order, form a doubly
linked chain in heap `h`: the first node's `prev` is `p`, the last node's
`next` is `n`, and each interior pair is linked both ways. -/

def dlseg (h : Heap) : Addr → List Addr → Addr → Prop
  | _, [], _ => True
  | p, a :: rest, n =>
    heapGet h a = some { next := rest.headD n, prev := p } ∧ dlseg h a rest n

@[simp] lemma dlseg_nil (h : Heap) (p n : Addr) : dlseg h p [] n := trivial

lemma dlseg_cons (h : Heap) (p a n : Addr) (rest : List Addr) :
    dlseg h p (a :: rest) n ↔
      heapGet h a = some { next := rest.headD n, prev := p } ∧
        dlseg h a rest n := by
  simp [dlseg]

instance dlsegDecidable (h : Heap) : ∀ (p : Addr) (l : List Addr) (n : Addr),
    Decidable (dlseg h p l n)
  | _, [], _ => isTrue trivial
  | p, a :: rest, n =>
    have : Decidable (dlseg h a rest n) := dlsegDecidable h a rest n
    decidable_of_iff
      (heapGet h a = some { next := rest.headD n, prev := p } ∧
        dlseg h a rest n)
      (dlseg_cons h p a n rest).symm

lemma dlseg_congr {h h' : Heap} : ∀ (l : List Addr) (p n : Addr),
    (∀ a ∈ l, heapGet h' a = heapGet h a) → dlseg h p l n → dlseg h' p l n
  | [], _, _, _, _ => trivial
  | a :: rest, p, n, hag, hd => by
    rw [dlseg_cons] at hd ⊢
    exact ⟨(hag a (by simp)).trans hd.1,
      dlseg_congr rest a n (fun b hb => hag b (List.mem_cons_of_mem a hb)) hd.2⟩

lemma dlseg_append (h : Heap) (l₁ l₂ : List Addr) : ∀ (p n : Addr),
    dlseg h p (l₁ ++ l₂) n ↔
      dlseg h p l₁ (l₂.headD n) ∧ dlseg h (l₁.getLastD p) l₂ n := by
  induction l₁ with
  | nil => intro p n; simp
  | cons a l₁ ih =>
    intro p n
    simp only [List.cons_append, dlseg_cons, List.getLastD_cons,
      headD_append, ih a n, and_assoc]

lemma dlseg_mem_heap {h : Heap} : ∀ {l : List Addr} {p n a : Addr},
    dlseg h p l n → a ∈ l → ∃ nd, heapGet h a = some nd := by
  intro l
  induction l with
  | nil => intro p n a _ ha; simp at ha
  | cons b rest ih =>
    intro p n a hd ha
    rw [dlseg_cons] at hd
    rcases List.mem_cons.mp ha with rfl | ha'
    · exact ⟨_, hd.1⟩
    · exact ih hd.2 ha'

lemma dlseg_getLast {h : Heap} : ∀ (l : List Addr) (p n : Addr), l ≠ [] →
    dlseg h p l n →
    heapGet h (l.getLastD 0) =
      some { next := n, prev := l.dropLast.getLastD p }
  | [], _, _, hne, _ => absurd rfl hne
  | [a], p, n, _, hd => by
    rw [dlseg_cons] at hd
    simpa using hd.1
  | a :: b :: rest, p, n, _, hd => by
    rw [dlseg_cons] at hd
    have ih := dlseg_getLast (b :: rest) a n (by simp) hd.2
    rw [List.getLastD_cons, getLastD_irrel (b :: rest) a 0 (by simp), ih]
    rw [List.dropLast_cons₂, List.getLastD_cons]

lemma dlseg_set_last_next {h : Heap} : ∀ (l : List Addr) (p n n' : Addr),
    l ≠ [] → l.Nodup → dlseg h p l n →
    dlseg (heapSet h (l.getLastD 0)
      { next := n', prev := l.dropLast.getLastD p }) p l n'
  | [], _, _, _, hne, _, _ => absurd rfl hne
  | [a], p, n, n', _, _, hd => by
    rw [dlseg_cons]
    simp
  | a :: b :: rest, p, n, n', _, hnd, hd => by
    rw [dlseg_cons] at hd
    have ha : a ∉ b :: rest := (List.nodup_cons.mp hnd).1
    have hat : a ≠ (b :: rest).getLastD 0 := by
      intro hEq; exact ha (hEq ▸ getLastD_mem (b :: rest) 0 (by simp))
    have hEq1 : (a :: b :: rest).getLastD 0 = (b :: rest).getLastD 0 := by
      rw [List.getLastD_cons]
      exact getLastD_irrel _ a 0 (by simp)
    have hEq2 : (a :: b :: rest).dropLast.getLastD p =
        (b :: rest).dropLast.getLastD a := by
      rw [List.dropLast_cons₂, List.getLastD_cons]
    rw [hEq1, hEq2, dlseg_cons, heapGet_set_ne _ _ hat]
    simp only [List.headD_cons] at hd ⊢
    exact ⟨hd.1, dlseg_set_last_next (b :: rest) a n n' (by simp)
      (List.nodup_cons.mp hnd).2 hd.2⟩

/-! ## The representation invariant -/

/-- Representation predicate `rep h root l`: the handle `root` represents, in heap `h`, exactly the
list of node addresses `l` (head first). -/
def rep (h : Heap) (root : dlist_t) (l : List Addr) : Prop :=
  root.head = l.headD 0 ∧ root.tail = l.getLastD 0 ∧
  (∀ a ∈ l, a ≠ 0) ∧ l.Nodup ∧ dlseg h 0 l 0

instance repDecidable (h : Heap) (root : dlist_t) (l : List Addr) :
    Decidable (rep h root l) :=
  decidable_of_iff
    (root.head = l.headD 0 ∧ root.tail = l.getLastD 0 ∧
      (∀ a ∈ l, a ≠ 0) ∧ l.Nodup ∧ dlseg h 0 l 0)
    Iff.rfl

lemma rep_length_le {h : Heap} {root : dlist_t} {l : List Addr}
    (hr : rep h root l) : l.length ≤ h.length := by
  have hsub : l ⊆ h.map Prod.fst := by
    intro a ha
    obtain ⟨nd, hnd⟩ := dlseg_mem_heap hr.2.2.2.2 ha
    exact heapGet_some_mem_keys h hnd
  calc l.length ≤ (h.map Prod.fst).length :=
        (List.Nodup.subperm hr.2.2.2.1 hsub).length_le
    _ = h.length := List.length_map _ _

/-! ## Operation specifications against `rep` -/

lemma isSome_heapSet {h : Heap} {b : Addr} (c : Addr) (nd : dlist_node_t)
    (hb : (heapGet h b).isSome) : (heapGet (heapSet h c nd) b).isSome := by
  by_cases hbc : b = c
  · subst hbc
    simp
  · rw [heapGet_set_ne _ _ hbc]
    exact hb

lemma enqueue_spec {h : Heap} {root : dlist_t} {l : List Addr} {a : Addr}
    {nd : dlist_node_t} (hr : rep h root l) (ha0 : a ≠ 0) (hal : a ∉ l)
    (hnd : heapGet h a = some nd) :
    ∃ h', dlist_enqueue h root a =
        .ok (h', { head := a, tail := if l = [] then a else root.tail }) ∧
      rep h' { head := a, tail := if l = [] then a else root.tail } (a :: l) ∧
      (∀ b, b ≠ a → b ≠ l.headD 0 → heapGet h' b = heapGet h b) ∧
      ∀ b, (heapGet h b).isSome → (heapGet h' b).isSome := by
  obtain ⟨hh, ht, hnz, hdup, hseg⟩ := hr
  rcases l with _ | ⟨c, rest⟩
  · refine ⟨heapSet (heapSet h a { nd with prev := 0 }) a { next := 0, prev := 0 },
      ?_, ?_, ?_, fun b hb => isSome_heapSet _ _ (isSome_heapSet _ _ hb)⟩
    · simp only [List.headD_nil] at hh
      simp only [List.getLastD_nil] at ht
      simp [dlist_enqueue, deref, hnd, hh, ht, Bind.bind, Except.bind,
        Pure.pure, Except.pure]
    · refine ⟨rfl, rfl, ?_, by simp, ?_⟩
      · simpa using ha0
      · rw [dlseg_cons]
        simp
    · intro b hba _
      rw [heapGet_set_ne _ _ hba, heapGet_set_ne _ _ hba]
  · have hc0 : c ≠ 0 := hnz c (by simp)
    have hac : a ≠ c := fun hE => hal (hE ▸ List.mem_cons_self a _)
    rw [dlseg_cons] at hseg
    simp only [List.headD_cons] at hh
    refine ⟨heapSet (heapSet (heapSet h a { nd with prev := 0 }) a
        { next := c, prev := 0 }) c { next := rest.headD 0, prev := a },
      ?_, ?_, ?_,
      fun b hb => isSome_heapSet _ _ (isSome_heapSet _ _ (isSome_heapSet _ _ hb))⟩
    · simp [dlist_enqueue, deref, hnd, hh, hc0,
        heapGet_set_ne _ _ (Ne.symm hac), hseg.1, Bind.bind, Except.bind,
        Pure.pure, Except.pure]
    · refine ⟨rfl, ?_, ?_, List.nodup_cons.mpr ⟨hal, hdup⟩, ?_⟩
      · show (if c :: rest = [] then a else root.tail) = (a :: c :: rest).getLastD 0
        have hgc : (a :: c :: rest).getLastD 0 = (c :: rest).getLastD a :=
          List.getLastD_cons ..
        rw [if_neg (List.cons_ne_nil c rest), ht, hgc]
        exact getLastD_irrel _ 0 a (by simp)
      · intro b hb
        rcases List.mem_cons.mp hb with rfl | hb'
        · exact ha0
        · exact hnz b hb'
      · rw [dlseg_cons]
        constructor
        · rw [heapGet_set_ne _ _ hac, heapGet_set_self]
          simp
        · rw [dlseg_cons]
          refine ⟨by rw [heapGet_set_self], ?_⟩
          refine dlseg_congr rest c 0 (fun b hb => ?_) hseg.2
          have hbc : b ≠ c := fun hE => (List.nodup_cons.mp hdup).1 (hE ▸ hb)
          have hba : b ≠ a := fun hE => hal (hE ▸ List.mem_cons_of_mem c hb)
          rw [heapGet_set_ne _ _ hbc, heapGet_set_ne _ _ hba,
            heapGet_set_ne _ _ hba]
    · intro b hba hbc
      simp only [List.headD_cons] at hbc
      rw [heapGet_set_ne _ _ hbc, heapGet_set_ne _ _ hba,
        heapGet_set_ne _ _ hba]

lemma pushback_spec {h : Heap} {root : dlist_t} {l : List Addr} {a : Addr}
    {nd : dlist_node_t} (hr : rep h root l) (ha0 : a ≠ 0) (hal : a ∉ l)
    (hnd : heapGet h a = some nd) :
    ∃ h', dlist_pushback h root a =
        .ok (h', { head := if l = [] then a else root.head, tail := a }) ∧
      rep h' { head := if l = [] then a else root.head, tail := a } (l ++ [a]) ∧
      (∀ b, b ≠ a → b ≠ l.getLastD 0 → heapGet h' b = heapGet h b) ∧
      ∀ b, (heapGet h b).isSome → (heapGet h' b).isSome := by
  obtain ⟨hh, ht, hnz, hdup, hseg⟩ := hr
  rcases hl : l with _ | ⟨c, rest⟩
  · subst hl
    refine ⟨heapSet (heapSet h a { nd with next := 0 }) a { next := 0, prev := 0 },
      ?_, ?_, ?_, fun b hb => isSome_heapSet _ _ (isSome_heapSet _ _ hb)⟩
    · simp only [List.headD_nil] at hh
      simp only [List.getLastD_nil] at ht
      simp [dlist_pushback, deref, hnd, hh, ht, Bind.bind, Except.bind,
        Pure.pure, Except.pure]
    · refine ⟨rfl, rfl, ?_, by simp, ?_⟩
      · simpa using ha0
      · rw [List.nil_append, dlseg_cons]
        simp
    · intro b hba _
      rw [heapGet_set_ne _ _ hba, heapGet_set_ne _ _ hba]
  · have hlne : l ≠ [] := by rw [hl]; simp
    rw [← hl]
    set t := l.getLastD 0 with htdef
    have htl : t ∈ l := getLastD_mem l 0 hlne
    have ht0 : t ≠ 0 := hnz t htl
    have hat : a ≠ t := fun hE => hal (hE ▸ htl)
    have hgl := dlseg_getLast l 0 0 hlne hseg
    rw [← htdef] at hgl
    have hifl : (if l = [] then a else root.head) = root.head := if_neg hlne
    refine ⟨heapSet (heapSet (heapSet h a { nd with next := 0 }) a
        { next := 0, prev := t }) t { next := a, prev := l.dropLast.getLastD 0 },
      ?_, ?_, ?_,
      fun b hb => isSome_heapSet _ _ (isSome_heapSet _ _ (isSome_heapSet _ _ hb))⟩
    · rw [hifl]
      simp [dlist_pushback, deref, hnd, ht, ← htdef, ht0,
        heapGet_set_ne _ _ (Ne.symm hat), hgl, Bind.bind, Except.bind,
        Pure.pure, Except.pure]
    · rw [hifl]
      refine ⟨?_, by rw [List.getLastD_concat], ?_, ?_, ?_⟩
      · rw [hh, hl]
        simp
      · intro b hb
        rcases List.mem_append.mp hb with hb' | hb'
        · exact hnz b hb'
        · simp at hb'
          exact hb' ▸ ha0
      · rw [List.nodup_append]
        refine ⟨hdup, by simp, fun x hx hxa => ?_⟩
        rw [List.mem_singleton] at hxa
        exact hal (hxa ▸ hx)
      · rw [dlseg_append]
        constructor
        · have hstep := dlseg_set_last_next l 0 0 a hlne hdup hseg
          rw [← htdef] at hstep
          refine dlseg_congr l 0 _ (fun b hb => ?_) hstep
          by_cases hbt : b = t
          · subst hbt
            rw [heapGet_set_self, heapGet_set_self]
          · have hba : b ≠ a := fun hE => hal (hE ▸ hb)
            rw [heapGet_set_ne _ _ hbt, heapGet_set_ne _ _ hba,
              heapGet_set_ne _ _ hba, heapGet_set_ne _ _ hbt]
        · rw [dlseg_cons]
          refine ⟨?_, trivial⟩
          rw [heapGet_set_ne _ _ hat, heapGet_set_self, ← htdef]
          simp
    · intro b hba hbt
      rw [heapGet_set_ne _ _ hbt, heapGet_set_ne _ _ hba,
        heapGet_set_ne _ _ hba]

lemma pop_empty {h : Heap} {root : dlist_t} (hr : rep h root []) :
    dlist_pop h root = .ok (0, h, root) := by
  have hh : root.head = 0 := hr.1
  simp [dlist_pop, hh, Bind.bind, Except.bind, Pure.pure, Except.pure]

lemma dequeue_empty {h : Heap} {root : dlist_t} (hr : rep h root []) :
    dlist_dequeue h root = .ok (0, h, root) := by
  have ht : root.tail = 0 := hr.2.1
  simp [dlist_dequeue, ht, Bind.bind, Except.bind, Pure.pure, Except.pure]

lemma pop_spec {h : Heap} {root : dlist_t} {x : Addr} {rest : List Addr}
    (hr : rep h root (x :: rest)) :
    ∃ h', dlist_pop h root =
        .ok (x, h', { head := rest.headD 0, tail := (if rest = [] then 0 else root.tail) }) ∧
      rep h' { head := rest.headD 0, tail := (if rest = [] then 0 else root.tail) }
        rest ∧
      heapGet h' x = heapGet h x ∧
      ∀ b, b ≠ rest.headD 0 → heapGet h' b = heapGet h b := by
  obtain ⟨hh, ht, hnz, hdup, hseg⟩ := hr
  simp only [List.headD_cons] at hh
  have hx0 : x ≠ 0 := hnz x (by simp)
  rw [dlseg_cons] at hseg
  rcases rest with _ | ⟨b, rest'⟩
  · simp only [List.getLastD_cons, List.getLastD_nil] at ht
    refine ⟨h, ?_, ?_, rfl, fun _ _ => rfl⟩
    · simp only [List.headD_cons, List.headD_nil] at hseg
      simp [dlist_pop, deref, hh, hx0, ht, hseg.1, Bind.bind, Except.bind,
        Pure.pure, Except.pure]
    · exact ⟨rfl, rfl, by simp, by simp, trivial⟩
  · have hxrest : x ∉ b :: rest' := (List.nodup_cons.mp hdup).1
    have htx : root.tail ≠ x := by
      rw [ht, List.getLastD_cons]
      intro hE
      exact hxrest (hE ▸ getLastD_mem (b :: rest') x (by simp))
    rw [dlseg_cons] at hseg
    simp only [List.headD_cons] at hseg
    have hxb : x ≠ b := fun hE => hxrest (hE ▸ List.mem_cons_self b rest')
    refine ⟨heapSet h b { next := rest'.headD 0, prev := 0 }, ?_, ?_, ?_, ?_⟩
    · simp [dlist_pop, deref, hh, hx0, htx, hseg.1, hseg.2.1, Bind.bind,
        Except.bind, Pure.pure, Except.pure]
    · refine ⟨by simp, ?_, ?_, (List.nodup_cons.mp hdup).2, ?_⟩
      · show root.tail = (b :: rest').getLastD 0
        rw [ht, List.getLastD_cons]
        exact getLastD_irrel _ x 0 (by simp)
      · exact fun c hc => hnz c (List.mem_cons_of_mem x hc)
      · rw [dlseg_cons]
        refine ⟨by rw [heapGet_set_self], ?_⟩
        refine dlseg_congr rest' b 0 (fun c hc => ?_) hseg.2.2
        have hcb : c ≠ b :=
          fun hE => (List.nodup_cons.mp (List.nodup_cons.mp hdup).2).1 (hE ▸ hc)
        exact heapGet_set_ne _ _ hcb
    · simpa using heapGet_set_ne (b := x) h { next := rest'.headD 0, prev := 0 } hxb
    · intro c hc
      simp only [List.headD_cons] at hc
      exact heapGet_set_ne _ _ hc

lemma dequeue_spec {h : Heap} {root : dlist_t} {x : Addr} {fore : List Addr}
    (hr : rep h root (fore ++ [x])) :
    ∃ h', dlist_dequeue h root =
        .ok (x, h', { head := (if fore = [] then 0 else root.head), tail := fore.getLastD 0 }) ∧
      rep h' { head := (if fore = [] then 0 else root.head), tail := fore.getLastD 0 } fore ∧
      heapGet h' x = heapGet h x ∧
      ∀ b, b ≠ fore.getLastD 0 → heapGet h' b = heapGet h b := by
  obtain ⟨hh, ht, hnz, hdup, hseg⟩ := hr
  rw [List.getLastD_concat] at ht
  have hx0 : x ≠ 0 := hnz x (by simp)
  rw [dlseg_append] at hseg
  obtain ⟨hseg1, hseg2⟩ := hseg
  rw [dlseg_cons] at hseg2
  simp only [List.headD_cons, List.headD_nil] at hseg1 hseg2
  have hxfore : x ∉ fore := by
    rw [List.nodup_append] at hdup
    exact fun hx => hdup.2.2 hx (by simp)
  rcases fore with _ | ⟨c, fore'⟩
  · simp only [List.nil_append, List.headD_cons] at hh
    simp only [List.getLastD_nil] at hseg2 ⊢
    refine ⟨h, ?_, ?_, rfl, fun _ _ => rfl⟩
    · simp [dlist_dequeue, deref, hh, hx0, ht, hseg2.1, Bind.bind,
        Except.bind, Pure.pure, Except.pure]
    · exact ⟨rfl, rfl, by simp, by simp, trivial⟩
  · have hhx : root.head ≠ x := by
      rw [hh, List.cons_append, List.headD_cons]
      exact fun hE => hxfore (hE ▸ List.mem_cons_self c fore')
    have htx : (c :: fore').getLastD 0 ≠ x :=
      fun hE => hxfore (hE ▸ getLastD_mem (c :: fore') 0 (by simp))
    have hgl := dlseg_getLast (c :: fore') 0 x (by simp) hseg1
    refine ⟨heapSet h ((c :: fore').getLastD 0)
        { next := 0, prev := (c :: fore').dropLast.getLastD 0 }, ?_, ?_, ?_, ?_⟩
    · have hgl' := hgl
      rw [List.getLastD_eq_getLast?] at hgl'
      simp only [if_neg (List.cons_ne_nil c fore')]
      simp [dlist_dequeue, deref, ht, hx0, hhx, hseg2.1, hgl, hgl', Bind.bind,
        Except.bind, Pure.pure, Except.pure]
    · refine ⟨?_, rfl, ?_, ?_, ?_⟩
      · show (if c :: fore' = [] then 0 else root.head) = (c :: fore').headD 0
        rw [if_neg (List.cons_ne_nil c fore'), hh, List.cons_append,
          List.headD_cons, List.headD_cons]
      · exact fun b hb => hnz b (List.mem_append_left _ hb)
      · exact (List.nodup_append.mp hdup).1
      · exact dlseg_set_last_next (c :: fore') 0 x 0 (by simp)
          (List.nodup_append.mp hdup).1 hseg1
    · exact heapGet_set_ne _ _ (Ne.symm htx)
    · intro b hb
      exact heapGet_set_ne _ _ hb

lemma remove_spec {h : Heap} {root : dlist_t} {l : List Addr} {a : Addr}
    (hr : rep h root l) (hal : a ∈ l) :
    ∃ h' root' nx pv, dlist_remove h root a = .ok (h', root') ∧
      rep h' root' (l.erase a) ∧
      heapGet h a = some { next := nx, prev := pv } ∧
      heapGet h' a = heapGet h a ∧
      ∀ b, b ≠ pv → b ≠ nx → heapGet h' b = heapGet h b := by
  obtain ⟨l₁, l₂, rfl⟩ := List.append_of_mem hal
  obtain ⟨hh, ht, hnz, hdup, hseg⟩ := hr
  rw [List.nodup_append] at hdup
  have hal₁ : a ∉ l₁ := fun hx => hdup.2.2 hx (by simp)
  have hal₂ : a ∉ l₂ := (List.nodup_cons.mp hdup.2.1).1
  have herase : (l₁ ++ a :: l₂).erase a = l₁ ++ l₂ := by
    rw [List.erase_append_right _ hal₁, List.erase_cons_head]
  rw [dlseg_append, dlseg_cons] at hseg
  simp only [List.headD_cons] at hseg
  obtain ⟨hseg1, hga, hseg2⟩ := hseg
  rw [herase]
  rcases hl1 : l₁ with _ | ⟨c₁, l₁'⟩ <;> rcases hl2 : l₂ with _ | ⟨c₂, l₂'⟩
  · -- singleton list [a]
    subst hl1; subst hl2
    simp only [List.headD_nil, List.getLastD_nil] at hga
    simp only [List.nil_append, List.headD_cons] at hh
    simp only [List.nil_append, List.getLastD_cons, List.getLastD_nil] at ht
    refine ⟨h, { head := 0, tail := 0 }, 0, 0, ?_, ?_, hga, rfl, fun _ _ _ => rfl⟩
    · simp [dlist_remove, deref, hga, hh, ht, Bind.bind, Except.bind,
        Pure.pure, Except.pure]
    · exact ⟨rfl, rfl, by simp, by simp, trivial⟩
  · -- a is the head, list continues with c₂ :: l₂'
    subst hl1; subst hl2
    simp only [List.nil_append]
    simp only [List.headD_cons, List.getLastD_nil] at hga
    simp only [List.nil_append, List.headD_cons] at hh
    rw [dlseg_cons] at hseg2
    have hc₂0 : c₂ ≠ 0 := hnz c₂ (by simp)
    have hac₂ : a ≠ c₂ := fun hE => hal₂ (hE ▸ List.mem_cons_self c₂ l₂')
    refine ⟨heapSet h c₂ { next := l₂'.headD 0, prev := 0 },
      { head := c₂, tail := root.tail }, c₂, 0, ?_, ?_, hga, ?_, ?_⟩
    · simp [dlist_remove, deref, hga, hh, hc₂0, hseg2.1, Bind.bind,
        Except.bind, Pure.pure, Except.pure]
    · refine ⟨rfl, ?_, ?_, (List.nodup_cons.mp hdup.2.1).2, ?_⟩
      · show root.tail = (c₂ :: l₂').getLastD 0
        rw [ht]
        simp only [List.nil_append, List.getLastD_cons]
      · exact fun b hb => hnz b (List.mem_cons_of_mem a hb)
      · rw [dlseg_cons]
        refine ⟨by rw [heapGet_set_self], ?_⟩
        refine dlseg_congr l₂' c₂ 0 (fun b hb => ?_) hseg2.2
        have hbc : b ≠ c₂ :=
          fun hE => (List.nodup_cons.mp (List.nodup_cons.mp hdup.2.1).2).1 (hE ▸ hb)
        exact heapGet_set_ne _ _ hbc
    · exact heapGet_set_ne _ _ hac₂
    · exact fun b _ hbc => heapGet_set_ne _ _ hbc
  · -- a is the tail, preceded by c₁ :: l₁'
    subst hl1; subst hl2
    simp only [List.append_nil]
    simp only [List.headD_nil] at hga
    have hl₁ne : (c₁ :: l₁') ≠ [] := List.cons_ne_nil c₁ l₁'
    set pv := (c₁ :: l₁').getLastD 0 with hpv
    have hpvl : pv ∈ c₁ :: l₁' := getLastD_mem _ 0 hl₁ne
    have hpv0 : pv ≠ 0 := hnz pv (List.mem_append_left _ hpvl)
    have hapv : a ≠ pv := fun hE => hal₁ (hE ▸ hpvl)
    have hgl := dlseg_getLast (c₁ :: l₁') 0 a hl₁ne hseg1
    rw [← hpv] at hgl
    have htl : root.tail = a := by
      rw [ht, getLastD_append_right _ 0 (List.cons_ne_nil a [])]
      simp
    refine ⟨heapSet h pv { next := 0, prev := (c₁ :: l₁').dropLast.getLastD 0 },
      { head := root.head, tail := pv }, 0, pv, ?_, ?_, hga, ?_, ?_⟩
    · simp [dlist_remove, deref, hga, hpv0, hgl, htl,
        heapGet_set_ne _ _ hapv, Bind.bind, Except.bind, Pure.pure,
        Except.pure]
    · refine ⟨?_, rfl, ?_, hdup.1, ?_⟩
      · show root.head = (c₁ :: l₁').headD 0
        rw [hh]
        simp [headD_append]
      · exact fun b hb => hnz b (List.mem_append_left _ hb)
      · exact dlseg_set_last_next (c₁ :: l₁') 0 a 0 hl₁ne hdup.1 hseg1
    · exact heapGet_set_ne _ _ hapv
    · exact fun b hbp _ => heapGet_set_ne _ _ hbp
  · -- a is interior: c₁ :: l₁' before, c₂ :: l₂' after
    subst hl1; subst hl2
    simp only [List.headD_cons] at hga
    rw [dlseg_cons] at hseg2
    have hl₁ne : (c₁ :: l₁') ≠ [] := List.cons_ne_nil c₁ l₁'
    set pv := (c₁ :: l₁').getLastD 0 with hpv
    have hpvl : pv ∈ c₁ :: l₁' := getLastD_mem _ 0 hl₁ne
    have hpv0 : pv ≠ 0 := hnz pv (List.mem_append_left _ hpvl)
    have hapv : a ≠ pv := fun hE => hal₁ (hE ▸ hpvl)
    have hc₂0 : c₂ ≠ 0 := hnz c₂ (by simp)
    have hac₂ : a ≠ c₂ := fun hE => hal₂ (hE ▸ List.mem_cons_self c₂ l₂')
    have hpvc₂ : pv ≠ c₂ := fun hE => hdup.2.2 hpvl (hE ▸ by simp)
    have hgl := dlseg_getLast (c₁ :: l₁') 0 a hl₁ne hseg1
    rw [← hpv] at hgl
    refine ⟨heapSet (heapSet h pv
        { next := c₂, prev := (c₁ :: l₁').dropLast.getLastD 0 }) c₂
        { next := l₂'.headD 0, prev := pv }, root, c₂, pv, ?_, ?_, hga, ?_, ?_⟩
    · simp [dlist_remove, deref, hga, hpv0, hgl, hc₂0,
        heapGet_set_ne _ _ hapv, heapGet_set_ne _ _ (Ne.symm hpvc₂),
        hseg2.1, Bind.bind, Except.bind, Pure.pure, Except.pure]
    · refine ⟨?_, ?_, ?_, ?_, ?_⟩
      · rw [hh]
        simp [headD_append]
      · rw [ht, getLastD_append_right _ 0 (List.cons_ne_nil a _),
          getLastD_append_right _ 0 (List.cons_ne_nil c₂ _),
          List.getLastD_cons]
        exact getLastD_irrel _ a 0 (by simp)
      · intro b hb
        rcases List.mem_append.mp hb with hb' | hb'
        · exact hnz b (List.mem_append_left _ hb')
        · exact hnz b (List.mem_append_right _ (List.mem_cons_of_mem a hb'))
      · rw [List.nodup_append]
        refine ⟨hdup.1, (List.nodup_cons.mp hdup.2.1).2, fun x hx hx2 => ?_⟩
        exact hdup.2.2 hx (List.mem_cons_of_mem a hx2)
      · rw [dlseg_append]
        constructor
        · simp only [List.headD_cons]
          have hstep := dlseg_set_last_next (c₁ :: l₁') 0 a c₂ hl₁ne hdup.1 hseg1
          rw [← hpv] at hstep
          refine dlseg_congr _ 0 c₂ (fun b hb => ?_) hstep
          have hbc₂ : b ≠ c₂ := fun hE => hdup.2.2 hb (hE ▸ by simp)
          rw [heapGet_set_ne _ _ hbc₂]
        · rw [← hpv, dlseg_cons]
          refine ⟨by rw [heapGet_set_self], ?_⟩
          refine dlseg_congr l₂' c₂ 0 (fun b hb => ?_) hseg2.2
          have hbc₂ : b ≠ c₂ :=
            fun hE => (List.nodup_cons.mp (List.nodup_cons.mp hdup.2.1).2).1 (hE ▸ hb)
          have hbpv : b ≠ pv :=
            fun hE => hdup.2.2 (hE ▸ hpvl) (List.mem_cons_of_mem a (List.mem_cons_of_mem c₂ hb))
          rw [heapGet_set_ne _ _ hbc₂, heapGet_set_ne _ _ hbpv]
    · rw [heapGet_set_ne _ _ hac₂, heapGet_set_ne _ _ hapv]
    · intro b hbp hbc
      rw [heapGet_set_ne _ _ hbc, heapGet_set_ne _ _ hbp]

/-! ## States reachable through the public operations

`reachable h root l` holds when the pair (heap `h`, handle `root`) can be
produced from `dlist_init` by a sequence of successful public operations,
and `l` is the corresponding sequence of linked node addresses, head first.
Insertions require a caller-allocated node (present in the heap, nonzero
address, not currently linked), matching the usage contract in the header
comment of src/dlist.h. -/

inductive reachable : Heap → dlist_t → List Addr → Prop where
  | init (h : Heap) : reachable h dlist_init []
  | enqueue {h : Heap} {root : dlist_t} {l : List Addr} {h' : Heap}
      {root' : dlist_t} (a : Addr) :
      reachable h root l → a ≠ 0 → a ∉ l → (heapGet h a).isSome →
      dlist_enqueue h root a = .ok (h', root') → reachable h' root' (a :: l)
  | push {h : Heap} {root : dlist_t} {l : List Addr} {h' : Heap}
      {root' : dlist_t} (a : Addr) :
      reachable h root l → a ≠ 0 → a ∉ l → (heapGet h a).isSome →
      dlist_push h root a = .ok (h', root') → reachable h' root' (a :: l)
  | pushback {h : Heap} {root : dlist_t} {l : List Addr} {h' : Heap}
      {root' : dlist_t} (a : Addr) :
      reachable h root l → a ≠ 0 → a ∉ l → (heapGet h a).isSome →
      dlist_pushback h root a = .ok (h', root') → reachable h' root' (l ++ [a])
  | pop {h : Heap} {root : dlist_t} {l : List Addr} {r : Addr} {h' : Heap}
      {root' : dlist_t} :
      reachable h root l → dlist_pop h root = .ok (r, h', root') →
      reachable h' root' l.tail
  | dequeue {h : Heap} {root : dlist_t} {l : List Addr} {r : Addr} {h' : Heap}
      {root' : dlist_t} :
      reachable h root l → dlist_dequeue h root = .ok (r, h', root') →
      reachable h' root' l.dropLast
  | remove {h : Heap} {root : dlist_t} {l : List Addr} {h' : Heap}
      {root' : dlist_t} (a : Addr) :
      reachable h root l → a ∈ l →
      dlist_remove h root a = .ok (h', root') → reachable h' root' (l.erase a)

/-- Every reachable state satisfies the representation invariant. -/
theorem reachable_rep {h : Heap} {root : dlist_t} {l : List Addr}
    (hre : reachable h root l) : rep h root l := by
  induction hre with
  | init h => exact ⟨rfl, rfl, by simp, by simp, trivial⟩
  | enqueue a hre ha0 hal hsome heq ih =>
    obtain ⟨nd, hnd⟩ := Option.isSome_iff_exists.mp hsome
    obtain ⟨h'', heq', hrep', _⟩ := enqueue_spec ih ha0 hal hnd
    rw [heq] at heq'
    simp only [Except.ok.injEq, Prod.mk.injEq] at heq'
    exact heq'.2 ▸ heq'.1 ▸ hrep'
  | push a hre ha0 hal hsome heq ih =>
    obtain ⟨nd, hnd⟩ := Option.isSome_iff_exists.mp hsome
    obtain ⟨h'', heq', hrep', _⟩ := enqueue_spec ih ha0 hal hnd
    rw [dlist_push] at heq
    rw [heq] at heq'
    simp only [Except.ok.injEq, Prod.mk.injEq] at heq'
    exact heq'.2 ▸ heq'.1 ▸ hrep'
  | pushback a hre ha0 hal hsome heq ih =>
    obtain ⟨nd, hnd⟩ := Option.isSome_iff_exists.mp hsome
    obtain ⟨h'', heq', hrep', _⟩ := pushback_spec ih ha0 hal hnd
    rw [heq] at heq'
    simp only [Except.ok.injEq, Prod.mk.injEq] at heq'
    exact heq'.2 ▸ heq'.1 ▸ hrep'
  | pop hre heq ih =>
    rename_i h root l r h' root'
    rcases l with _ | ⟨x, rest⟩
    · have hpe := pop_empty ih
      rw [heq] at hpe
      simp only [Except.ok.injEq, Prod.mk.injEq] at hpe
      exact hpe.2.2 ▸ hpe.2.1 ▸ ih
    · obtain ⟨h'', heq', hrep', _⟩ := pop_spec ih
      rw [heq] at heq'
      simp only [Except.ok.injEq, Prod.mk.injEq] at heq'
      exact heq'.2.2 ▸ heq'.2.1 ▸ hrep'
  | dequeue hre heq ih =>
    rename_i h root l r h' root'
    rcases List.eq_nil_or_concat l with rfl | ⟨fore, x, rfl⟩
    · have hpe := dequeue_empty ih
      rw [heq] at hpe
      simp only [Except.ok.injEq, Prod.mk.injEq] at hpe
      exact hpe.2.2 ▸ hpe.2.1 ▸ ih
    · rw [List.concat_eq_append] at ih
      obtain ⟨h'', heq', hrep', _⟩ := dequeue_spec ih
      rw [heq] at heq'
      simp only [Except.ok.injEq, Prod.mk.injEq] at heq'
      rw [List.concat_eq_append, List.dropLast_concat]
      exact heq'.2.2 ▸ heq'.2.1 ▸ hrep'
  | remove a hre hmem heq ih =>
    obtain ⟨h'', root'', nx, pv, heq', hrep', _⟩ := remove_spec ih hmem
    rw [heq] at heq'
    simp only [Except.ok.injEq, Prod.mk.injEq] at heq'
    exact heq'.2 ▸ heq'.1 ▸ hrep'

/-! ## Correctness of `dlist_check` on represented lists -/

lemma checkLoop_spec {h : Heap} : ∀ (l : List Addr) (p : Addr) (fuel : Nat),
    (p = 0 ∨ ∃ pnd, heapGet h p = some pnd ∧ pnd.next = l.headD 0) →
    dlseg h p l 0 → (∀ a ∈ l, a ≠ 0) → l.length ≤ fuel →
    checkLoop h fuel (l.headD 0) p = .ok (l.getLastD p) := by
  intro l
  induction l with
  | nil =>
    intro p fuel _ _ _ _
    cases fuel <;> simp [checkLoop]
  | cons a rest ih =>
    intro p fuel hp hseg hnz hlen
    rw [dlseg_cons] at hseg
    have ha0 : a ≠ 0 := hnz a (by simp)
    rcases fuel with _ | f
    · simp at hlen
    · have hlen' : rest.length ≤ f := by
        simp only [List.length_cons] at hlen
        omega
      have hrest : checkLoop h f (rest.headD 0) a = .ok (rest.getLastD a) :=
        ih a f (Or.inr ⟨_, hseg.1, rfl⟩) hseg.2
          (fun b hb => hnz b (List.mem_cons_of_mem a hb)) hlen'
      rw [List.getLastD_cons]
      by_cases hp0 : p = 0
      · subst hp0
        simp [checkLoop, deref, ha0, hseg.1, Bind.bind, Except.bind,
          Pure.pure, Except.pure]
        simpa using hrest
      · rcases hp with rfl | ⟨pnd, hpnd, hpx⟩
        · exact absurd rfl hp0
        · simp only [List.headD_cons] at hpx
          simp [checkLoop, deref, ha0, hp0, hpnd, hseg.1, hpx,
            Bind.bind, Except.bind, Pure.pure, Except.pure]
          simpa using hrest

lemma check_spec {h : Heap} {root : dlist_t} {l : List Addr}
    (hr : rep h root l) : dlist_check h root = .ok () := by
  obtain ⟨hh, ht, hnz, hdup, hseg⟩ := hr
  have hlen : l.length ≤ h.length + 1 :=
    le_trans (rep_length_le ⟨hh, ht, hnz, hdup, hseg⟩) (Nat.le_succ _)
  have hloop := checkLoop_spec l 0 (h.length + 1) (Or.inl rfl) hseg hnz hlen
  simp only [List.headD_eq_head?, List.getLastD_eq_getLast?] at hloop
  simp [dlist_check, hh, hloop, ht, Bind.bind, Except.bind, Pure.pure,
    Except.pure]

/-! ## Pure model of the early-terminating folds -/

/-- Pure reference model of a fold with early termination: apply `g` along
`cs`, stopping as soon as the returned flag is set. -/
def stopFold {α : Type} (g : Nat → α → α × Bool) : List Nat → α → α
  | [], acc => acc
  | c :: cs, acc =>
    let r := g c acc
    if r.2 then r.1 else stopFold g cs r.1

lemma foldrLoop_spec {α : Type} {h : Heap} {g : Nat → α → α × Bool}
    {ofs : Nat} : ∀ (l : List Addr) (p : Addr) (fuel : Nat) (b : α),
    dlseg h p l 0 → (∀ a ∈ l, a ≠ 0) → l.length ≤ fuel →
    foldrLoop h g ofs fuel (l.headD 0) b =
      .ok (stopFold g (l.map (getContainer ofs)) b) := by
  intro l
  induction l with
  | nil =>
    intro p fuel b _ _ _
    cases fuel <;> simp [foldrLoop, stopFold]
  | cons a rest ih =>
    intro p fuel b hseg hnz hlen
    rw [dlseg_cons] at hseg
    have ha0 : a ≠ 0 := hnz a (by simp)
    rcases fuel with _ | f
    · simp at hlen
    · have hlen' : rest.length ≤ f := by
        simp only [List.length_cons] at hlen
        omega
      have hrest := ih a f (g (getContainer ofs a) b).1 hseg.2
        (fun c hc => hnz c (List.mem_cons_of_mem a hc)) hlen'
      rcases hflag : (g (getContainer ofs a) b).2 with _ | _
      · simp [foldrLoop, deref, ha0, hflag, hseg.1, stopFold, Bind.bind,
          Except.bind, Pure.pure, Except.pure]
        simpa using hrest
      · simp [foldrLoop, deref, ha0, hflag, hseg.1, stopFold, Bind.bind,
          Except.bind, Pure.pure, Except.pure]

lemma foldlLoop_spec {α : Type} {h : Heap} {g : Nat → α → α × Bool}
    {ofs : Nat} (l : List Addr) : ∀ (n : Addr) (fuel : Nat) (b : α),
    dlseg h 0 l n → (∀ a ∈ l, a ≠ 0) → l.length ≤ fuel →
    foldlLoop h g ofs fuel (l.getLastD 0) b =
      .ok (stopFold g ((l.map (getContainer ofs)).reverse) b) := by
  induction l using List.reverseRecOn with
  | nil =>
    intro n fuel b _ _ _
    cases fuel <;> simp [foldlLoop, stopFold]
  | append_singleton l' a ih =>
    intro n fuel b hseg hnz hlen
    rw [dlseg_append, dlseg_cons] at hseg
    simp only [List.headD_nil] at hseg
    have ha0 : a ≠ 0 := hnz a (by simp)
    rcases fuel with _ | f
    · simp at hlen
    · have hlen' : l'.length ≤ f := by
        simp only [List.length_append, List.length_cons] at hlen
        omega
      have hrest := ih a f (g (getContainer ofs a) b).1 hseg.1
        (fun c hc => hnz c (List.mem_append_left _ hc)) hlen'
      rw [List.getLastD_concat]
      have hmap : ((l' ++ [a]).map (getContainer ofs)).reverse =
          getContainer ofs a :: (l'.map (getContainer ofs)).reverse := by
        simp
      rw [hmap]
      rcases hflag : (g (getContainer ofs a) b).2 with _ | _
      · simp [foldlLoop, deref, ha0, hflag, hseg.2.1, stopFold, Bind.bind,
          Except.bind, Pure.pure, Except.pure]
        simpa using hrest
      · simp [foldlLoop, deref, ha0, hflag, hseg.2.1, stopFold, Bind.bind,
          Except.bind, Pure.pure, Except.pure]

/-- On a represented list, the typed forward fold is the pure `stopFold`
over the record addresses in head-to-tail order. -/
lemma foldr_spec {α : Type} {h : Heap} {root : dlist_t} {l : List Addr}
    {ofs : Nat} {g : Nat → α → α × Bool} {b : α} (hr : rep h root l) :
    dlist_typed_foldr ofs h root g b =
      .ok (stopFold g (l.map (getContainer ofs)) b) := by
  obtain ⟨hh, ht, hnz, hdup, hseg⟩ := hr
  have hlen : l.length ≤ h.length + 1 :=
    le_trans (rep_length_le ⟨hh, ht, hnz, hdup, hseg⟩) (Nat.le_succ _)
  rw [dlist_typed_foldr, hh]
  exact foldrLoop_spec l 0 (h.length + 1) b hseg hnz hlen

/-- On a represented list, the typed backward fold is the pure `stopFold`
over the record addresses in tail-to-head order. -/
lemma foldl_spec {α : Type} {h : Heap} {root : dlist_t} {l : List Addr}
    {ofs : Nat} {g : Nat → α → α × Bool} {b : α} (hr : rep h root l) :
    dlist_typed_foldl ofs h root g b =
      .ok (stopFold g ((l.map (getContainer ofs)).reverse) b) := by
  obtain ⟨hh, ht, hnz, hdup, hseg⟩ := hr
  have hlen : l.length ≤ h.length + 1 :=
    le_trans (rep_length_le ⟨hh, ht, hnz, hdup, hseg⟩) (Nat.le_succ _)
  rw [dlist_typed_foldl, ht]
  exact foldlLoop_spec l 0 (h.length + 1) b hseg hnz hlen

/-! ## Iterated-operation specifications -/

lemma pushbackAll_spec : ∀ (as : List Addr) {h : Heap} {root : dlist_t}
    {l : List Addr}, rep h root l → (∀ a ∈ as, a ≠ 0) → (l ++ as).Nodup →
    (∀ a ∈ as, (heapGet h a).isSome) →
    ∃ h' root', pushbackAll h root as = .ok (h', root') ∧
      rep h' root' (l ++ as) := by
  intro as
  induction as with
  | nil =>
    intro h root l hr _ _ _
    exact ⟨h, root, by simp [pushbackAll, Pure.pure, Except.pure],
      by simpa using hr⟩
  | cons a as ih =>
    intro h root l hr hnz hdup hsome
    have ha0 : a ≠ 0 := hnz a (by simp)
    have hal : a ∉ l := by
      rw [List.nodup_append] at hdup
      exact fun hx => hdup.2.2 hx (by simp)
    obtain ⟨nd, hnd⟩ := Option.isSome_iff_exists.mp (hsome a (by simp))
    obtain ⟨h₁, heq₁, hrep₁, _, hmono₁⟩ := pushback_spec hr ha0 hal hnd
    have hdup' : ((l ++ [a]) ++ as).Nodup := by
      rw [List.append_assoc]
      exact hdup
    obtain ⟨h', root', heq', hrep'⟩ := ih hrep₁
      (fun b hb => hnz b (List.mem_cons_of_mem a hb)) hdup'
      (fun b hb => hmono₁ b (hsome b (List.mem_cons_of_mem a hb)))
    refine ⟨h', root', ?_, by rwa [List.append_assoc] at hrep'⟩
    simp [pushbackAll, heq₁, heq', Bind.bind, Except.bind]

lemma enqueueAll_spec : ∀ (as : List Addr) {h : Heap} {root : dlist_t}
    {l : List Addr}, rep h root l → (∀ a ∈ as, a ≠ 0) → (as ++ l).Nodup →
    (∀ a ∈ as, (heapGet h a).isSome) →
    ∃ h' root', enqueueAll h root as = .ok (h', root') ∧
      rep h' root' (as.reverse ++ l) := by
  intro as
  induction as with
  | nil =>
    intro h root l hr _ _ _
    exact ⟨h, root, by simp [enqueueAll, Pure.pure, Except.pure],
      by simpa using hr⟩
  | cons a as ih =>
    intro h root l hr hnz hdup hsome
    have ha0 : a ≠ 0 := hnz a (by simp)
    have hal : a ∉ l := by
      rw [List.cons_append, List.nodup_cons] at hdup
      exact fun hx => hdup.1 (List.mem_append_right _ hx)
    obtain ⟨nd, hnd⟩ := Option.isSome_iff_exists.mp (hsome a (by simp))
    obtain ⟨h₁, heq₁, hrep₁, _, hmono₁⟩ := enqueue_spec hr ha0 hal hnd
    have hdup' : (as ++ (a :: l)).Nodup := by
      rw [List.cons_append] at hdup
      exact ((List.perm_middle).nodup_iff).mpr hdup
    obtain ⟨h', root', heq', hrep'⟩ := ih hrep₁
      (fun b hb => hnz b (List.mem_cons_of_mem a hb)) hdup'
      (fun b hb => hmono₁ b (hsome b (List.mem_cons_of_mem a hb)))
    refine ⟨h', root', ?_, ?_⟩
    · simp [enqueueAll, heq₁, heq', Bind.bind, Except.bind]
    · rw [List.reverse_cons, List.append_assoc]
      exact hrep'

lemma popAll_spec : ∀ (l : List Addr) {h : Heap} {root : dlist_t},
    rep h root l →
    ∃ h' root', popAll h root l.length = .ok (l, h', root') ∧
      rep h' root' [] := by
  intro l
  induction l with
  | nil =>
    intro h root hr
    exact ⟨h, root, by simp [popAll, Pure.pure, Except.pure], hr⟩
  | cons x rest ih =>
    intro h root hr
    obtain ⟨h₁, heq₁, hrep₁, _⟩ := pop_spec hr
    obtain ⟨h', root', heq', hrep'⟩ := ih hrep₁
    refine ⟨h', root', ?_, hrep'⟩
    simp only [List.headD_eq_head?, List.getLastD_eq_getLast?] at heq'
    simp [popAll, heq₁, heq', Bind.bind, Except.bind, Pure.pure, Except.pure]

lemma dequeueAll_spec (l : List Addr) : ∀ {h : Heap} {root : dlist_t},
    rep h root l →
    ∃ h' root', dequeueAll h root l.length = .ok (l.reverse, h', root') ∧
      rep h' root' [] := by
  induction l using List.reverseRecOn with
  | nil =>
    intro h root hr
    exact ⟨h, root, by simp [dequeueAll, Pure.pure, Except.pure], hr⟩
  | append_singleton fore x ih =>
    intro h root hr
    obtain ⟨h₁, heq₁, hrep₁, _⟩ := dequeue_spec hr
    obtain ⟨h', root', heq', hrep'⟩ := ih hrep₁
    refine ⟨h', root', ?_, hrep'⟩
    have hlen : (fore ++ [x]).length = fore.length + 1 := by simp
    rw [hlen]
    simp only [List.headD_eq_head?, List.getLastD_eq_getLast?] at heq'
    simp [dequeueAll, heq₁, heq', Bind.bind, Except.bind, Pure.pure,
      Except.pure]

/-! ## Counting reducer invocations -/

/-- Instrument a reducer so that the accumulator also counts invocations. -/
def instr {α : Type} (f : Nat → α → α × Bool) : Nat → α × Nat → (α × Nat) × Bool :=
  fun c p => (((f c p.1).1, p.2 + 1), (f c p.1).2)

/-- The accumulator after the first `i` invocations of `f` along `cs`,
ignoring the termination flag. -/
def accUpTo {α : Type} (f : Nat → α → α × Bool) (init : α) (cs : List Nat) :
    Nat → α
  | 0 => init
  | i + 1 => (f (cs.getD i 0) (accUpTo f init cs i)).1

/-- The termination flag produced by the `(i+1)`-st invocation of `f`. -/
def flagAt {α : Type} (f : Nat → α → α × Bool) (init : α) (cs : List Nat)
    (i : Nat) : Bool :=
  (f (cs.getD i 0) (accUpTo f init cs i)).2

/-- The reducer sets the termination signal exactly on the `k`-th visited
record (`1 ≤ k ≤ |cs|`), and not before. -/
def firesAt {α : Type} (f : Nat → α → α × Bool) (init : α) (cs : List Nat)
    (k : Nat) : Prop :=
  1 ≤ k ∧ k ≤ cs.length ∧ (∀ i, i < k - 1 → flagAt f init cs i = false) ∧
  flagAt f init cs (k - 1) = true

instance firesAtDecidable {α : Type} (f : Nat → α → α × Bool) (init : α)
    (cs : List Nat) (k : Nat) : Decidable (firesAt f init cs k) :=
  decidable_of_iff
    (1 ≤ k ∧ k ≤ cs.length ∧ (∀ i, i < k - 1 → flagAt f init cs i = false) ∧
      flagAt f init cs (k - 1) = true)
    Iff.rfl

/-- The accumulator produced by the `k`-th invocation. -/
def hitAcc {α : Type} (f : Nat → α → α × Bool) (init : α) (cs : List Nat)
    (k : Nat) : α :=
  (f (cs.getD (k - 1) 0) (accUpTo f init cs (k - 1))).1

lemma accUpTo_cons {α : Type} (f : Nat → α → α × Bool) (init : α) (c : Nat)
    (cs : List Nat) : ∀ i,
    accUpTo f init (c :: cs) (i + 1) = accUpTo f (f c init).1 cs i
  | 0 => rfl
  | i + 1 => by
    show (f ((c :: cs).getD (i + 1) 0) (accUpTo f init (c :: cs) (i + 1))).1 =
      (f (cs.getD i 0) (accUpTo f (f c init).1 cs i)).1
    rw [accUpTo_cons f init c cs i, List.getD_cons_succ]

lemma flagAt_cons {α : Type} (f : Nat → α → α × Bool) (init : α) (c : Nat)
    (cs : List Nat) (i : Nat) :
    flagAt f init (c :: cs) (i + 1) = flagAt f (f c init).1 cs i := by
  rw [flagAt, flagAt, accUpTo_cons, List.getD_cons_succ]

lemma hitAcc_cons {α : Type} (f : Nat → α → α × Bool) (init : α) (c : Nat)
    (cs : List Nat) (k : Nat) :
    hitAcc f init (c :: cs) (k + 2) = hitAcc f (f c init).1 cs (k + 1) := by
  show (f ((c :: cs).getD (k + 1) 0) (accUpTo f init (c :: cs) (k + 1))).1 =
    (f (cs.getD k 0) (accUpTo f (f c init).1 cs k)).1
  rw [accUpTo_cons, List.getD_cons_succ]

lemma stopFold_instr_fires {α : Type} (f : Nat → α → α × Bool) :
    ∀ (cs : List Nat) (k : Nat) (init : α) (n₀ : Nat), firesAt f init cs k →
    stopFold (instr f) cs (init, n₀) = (hitAcc f init cs k, n₀ + k) := by
  intro cs
  induction cs with
  | nil =>
    intro k init n₀ hf
    obtain ⟨hk1, hk2, _, _⟩ := hf
    simp at hk2
    omega
  | cons c cs ih =>
    intro k init n₀ hf
    obtain ⟨hk1, hk2, hbef, hat⟩ := hf
    rcases k with _ | k
    · omega
    rcases k with _ | k'
    · have hflag : (f c init).2 = true := by simpa [flagAt, accUpTo] using hat
      simp [stopFold, instr, hflag, hitAcc, accUpTo]
    · have hflag : (f c init).2 = false := by
        simpa [flagAt, accUpTo] using hbef 0 (by omega)
      have hf' : firesAt f (f c init).1 cs (k' + 1) := by
        refine ⟨by omega, ?_, ?_, ?_⟩
        · simp only [List.length_cons] at hk2
          omega
        · intro i hi
          have hb := hbef (i + 1) (by omega)
          rwa [flagAt_cons] at hb
        · have hb := hat
          rw [show k' + 1 + 1 - 1 = k' + 1 from rfl, flagAt_cons] at hb
          exact hb
      have hrec := ih (k' + 1) (f c init).1 (n₀ + 1) hf'
      simp only [stopFold, instr, hflag, if_neg Bool.false_ne_true]
      rw [hrec, hitAcc_cons]
      refine Prod.ext rfl ?_
      simp
      omega

lemma stopFold_instr_never {α : Type} (f : Nat → α → α × Bool) :
    ∀ (cs : List Nat) (init : α) (n₀ : Nat),
    (∀ i, i < cs.length → flagAt f init cs i = false) →
    stopFold (instr f) cs (init, n₀) =
      (accUpTo f init cs cs.length, n₀ + cs.length) := by
  intro cs
  induction cs with
  | nil =>
    intro init n₀ _
    simp [stopFold, accUpTo]
  | cons c cs ih =>
    intro init n₀ hn
    have hflag : (f c init).2 = false := by
      simpa [flagAt, accUpTo] using hn 0 (by simp)
    have hrec := ih (f c init).1 (n₀ + 1) (fun i hi => by
      have hb := hn (i + 1) (by simpa using Nat.succ_lt_succ hi)
      rwa [flagAt_cons] at hb)
    simp only [stopFold, instr, hflag, if_neg Bool.false_ne_true]
    rw [hrec]
    refine Prod.ext ?_ ?_
    · show accUpTo f (f c init).1 cs cs.length =
        accUpTo f init (c :: cs) (c :: cs).length
      rw [List.length_cons, accUpTo_cons]
    · simp
      omega

/-- The collecting reducer: appends each visited record address, never
terminates early. -/
def collectRed : Nat → List Nat → List Nat × Bool :=
  fun x acc => (acc ++ [x], false)

lemma stopFold_collect : ∀ (cs acc : List Nat),
    stopFold collectRed cs acc = acc ++ cs
  | [], acc => by simp [stopFold]
  | c :: cs, acc => by
    rw [stopFold]
    simp only [collectRed]
    rw [if_neg Bool.false_ne_true, stopFold_collect cs (acc ++ [c])]
    simp

/-- Injectivity of `GET_CONTAINER` at a fixed offset on the address space. -/
lemma getContainer_injOn {ofs a b : Nat} (ha : a < ptrSpace)
    (hb : b < ptrSpace) (hE : getContainer ofs a = getContainer ofs b) :
    a = b := by
  have h2 : a ≡ b [MOD ptrSpace] := Nat.ModEq.add_right_cancel' _ hE
  rw [Nat.ModEq, Nat.mod_eq_of_lt ha, Nat.mod_eq_of_lt hb] at h2
  exact h2

/-! ## Claim theorems -/

/-- C1 counterexample: from an initialized empty list, pushing back the two
distinct records 1, 2 and then dequeueing twice returns `[2, 1]` — the
*reverse* of insertion order — so the claimed FIFO round trip
(`pushback`ⁿ then `dequeue`ⁿ returns insertion order) is false at `N = 2`. -/
theorem C1_counterexample :
    ∃ s, pushbackAll [(1, { next := 0, prev := 0 }), (2, { next := 0, prev := 0 })]
        dlist_init [1, 2] = .ok s ∧
      ∃ out, dequeueAll s.1 s.2 2 = .ok out ∧
        out.1 = [2, 1] ∧ out.1 ≠ [1, 2] :=
  ⟨_, rfl, _, rfl, rfl, by decide⟩

/-- C1 (amended): for every `N ≥ 1` and every sequence of `N` distinct
records, starting from an initialized empty list, `N` `pushback` insertions
followed by `N` `dequeue` removals return the records in *reverse* insertion
order (LIFO), and `N` `enqueue` insertions followed by `N` `pop` removals
also return them in reverse insertion order (LIFO). -/
theorem C1_roundtrip_lifo (as : List Addr) (h : Heap) (_hN : 1 ≤ as.length)
    (hnz : ∀ a ∈ as, a ≠ 0) (hnd : as.Nodup)
    (hsome : ∀ a ∈ as, (heapGet h a).isSome) :
    (∃ h₁ root₁, pushbackAll h dlist_init as = .ok (h₁, root₁) ∧
      ∃ h₂ root₂, dequeueAll h₁ root₁ as.length =
        .ok (as.reverse, h₂, root₂)) ∧
    (∃ h₁ root₁, enqueueAll h dlist_init as = .ok (h₁, root₁) ∧
      ∃ h₂ root₂, popAll h₁ root₁ as.length =
        .ok (as.reverse, h₂, root₂)) := by
  have hrep0 : rep h dlist_init [] := ⟨rfl, rfl, by simp, by simp, trivial⟩
  constructor
  · obtain ⟨h₁, root₁, heq₁, hrep₁⟩ :=
      pushbackAll_spec as hrep0 hnz (by simpa using hnd) hsome
    rw [List.nil_append] at hrep₁
    obtain ⟨h₂, root₂, heq₂, _⟩ := dequeueAll_spec as hrep₁
    exact ⟨h₁, root₁, heq₁, h₂, root₂, heq₂⟩
  · obtain ⟨h₁, root₁, heq₁, hrep₁⟩ :=
      enqueueAll_spec as hrep0 hnz (by simpa using hnd) hsome
    rw [List.append_nil] at hrep₁
    obtain ⟨h₂, root₂, heq₂, _⟩ := popAll_spec as.reverse hrep₁
    rw [List.length_reverse] at heq₂
    exact ⟨h₁, root₁, heq₁, h₂, root₂, heq₂⟩

/-- C1 witness: the amended round trip at the concrete sequence `[1, 2]`. -/
theorem C1_roundtrip_lifo_witness :
    ∃ h₁ root₁, pushbackAll [(1, { next := 0, prev := 0 }),
        (2, { next := 0, prev := 0 })] dlist_init [1, 2] = .ok (h₁, root₁) ∧
      ∃ h₂ root₂, dequeueAll h₁ root₁ ([1, 2] : List Addr).length =
        .ok (([1, 2] : List Addr).reverse, h₂, root₂) :=
  (C1_roundtrip_lifo [1, 2] [(1, { next := 0, prev := 0 }),
    (2, { next := 0, prev := 0 })] (by decide) (by decide) (by decide)
    (by decide)).1

/-- C2 counterexample: for a bound record type whose embedded Link Node
field is at byte offset 8, the typed `pop` on an initialized empty list
returns `GET_CONTAINER(NULL) = 2^64 - 8`, which is *not* the absent (null)
value — so "returns absent … regardless of the byte offset" is false. -/
theorem C2_counterexample :
    dlist_typed_pop 8 [] dlist_init =
      .ok (18446744073709551608, [], dlist_init) ∧
    (18446744073709551608 : Nat) ≠ 0 :=
  ⟨rfl, by decide⟩

/-- C2 (amended): on an initialized empty list the untyped `pop`, `dequeue`,
`head` and `tail` return the absent value (`NULL`), and the typed operations
produced by the Generic Binding return absent when the embedded Link Node
field is at byte offset 0 in the record (as in the repository's unit test);
for a nonzero offset the typed wrappers return the non-null value
`0 - offset (mod 2^64)`. -/
theorem C2_empty_absent (h : Heap) :
    dlist_pop h dlist_init = .ok (0, h, dlist_init) ∧
    dlist_dequeue h dlist_init = .ok (0, h, dlist_init) ∧
    dlist_head dlist_init = 0 ∧ dlist_tail dlist_init = 0 ∧
    dlist_typed_pop 0 h dlist_init = .ok (0, h, dlist_init) ∧
    dlist_typed_dequeue 0 h dlist_init = .ok (0, h, dlist_init) ∧
    dlist_typed_head 0 dlist_init = 0 ∧ dlist_typed_tail 0 dlist_init = 0 ∧
    ∀ ofs, 0 < ofs → ofs < ptrSpace →
      dlist_typed_pop ofs h dlist_init =
        .ok (ptrSpace - ofs, h, dlist_init) ∧
      dlist_typed_dequeue ofs h dlist_init =
        .ok (ptrSpace - ofs, h, dlist_init) ∧
      dlist_typed_head ofs dlist_init = ptrSpace - ofs ∧
      dlist_typed_tail ofs dlist_init = ptrSpace - ofs ∧
      ptrSpace - ofs ≠ 0 := by
  refine ⟨rfl, rfl, rfl, rfl, rfl, rfl, rfl, rfl, fun ofs h1 h2 => ?_⟩
  have hgc : getContainer ofs 0 = ptrSpace - ofs := by
    rw [getContainer, Nat.mod_eq_of_lt h2, Nat.zero_add,
      Nat.mod_eq_of_lt (by omega)]
  refine ⟨?_, ?_, ?_, ?_, by omega⟩
  · simp [dlist_typed_pop, dlist_pop, dlist_init, hgc, Bind.bind,
      Except.bind, Pure.pure, Except.pure]
  · simp [dlist_typed_dequeue, dlist_dequeue, dlist_init, hgc, Bind.bind,
      Except.bind, Pure.pure, Except.pure]
  · simp [dlist_typed_head, dlist_head, dlist_init, hgc]
  · simp [dlist_typed_tail, dlist_tail, dlist_init, hgc]

/-- C2 witness: the amended statement applied at the empty heap and at the
concrete nonzero offset 8. -/
theorem C2_empty_absent_witness :
    dlist_pop [] dlist_init = .ok (0, [], dlist_init) ∧
    dlist_typed_pop 8 [] dlist_init =
      .ok (ptrSpace - 8, [], dlist_init) ∧
    dlist_typed_dequeue 8 [] dlist_init =
      .ok (ptrSpace - 8, [], dlist_init) ∧
    dlist_typed_head 8 dlist_init = ptrSpace - 8 ∧
    dlist_typed_tail 8 dlist_init = ptrSpace - 8 ∧
    ptrSpace - 8 ≠ 0 :=
  ⟨(C2_empty_absent []).1,
    (C2_empty_absent []).2.2.2.2.2.2.2.2 8 (by decide) (by decide)⟩

/-- C3: calling `dlist_destroy` on a handle whose `head` or `tail` is present always
invokes the abort primitive (`panic`, which does not return); on an
initialized empty handle it succeeds and overwrites both references with the
poison value `0xdeadbeef`, which is distinct from the absent value and from
the address of any node of any represented list in a heap that has no node
at the poison address, so that a subsequent `pop` or `destroy` without
re-`init` faults instead of succeeding. -/
theorem C3_destroy :
    (∀ root : dlist_t, root.head ≠ 0 ∨ root.tail ≠ 0 →
      dlist_destroy root =
        .error (.fatal "dlist_destroy: root->head is non-null\n")) ∧
    dlist_destroy dlist_init =
      .ok { head := poisonAddr, tail := poisonAddr } ∧
    poisonAddr ≠ 0 ∧
    (∀ h root l, rep h root l → heapGet h poisonAddr = none →
      poisonAddr ∉ l) ∧
    (∀ h : Heap, heapGet h poisonAddr = none →
      dlist_pop h { head := poisonAddr, tail := poisonAddr } =
        .error .badDeref ∧
      dlist_destroy { head := poisonAddr, tail := poisonAddr } =
        .error (.fatal "dlist_destroy: root->head is non-null\n")) := by
  refine ⟨?_, rfl, by decide, ?_, ?_⟩
  · intro root hor
    rcases hor with hh | htl
    · simp [dlist_destroy, hh]
    · by_cases hh : root.head = 0
      · simp [dlist_destroy, hh, htl]
      · simp [dlist_destroy, hh]
  · intro h root l hr hnone hmem
    obtain ⟨nd, hnd⟩ := dlseg_mem_heap hr.2.2.2.2 hmem
    rw [hnd] at hnone
    exact Option.noConfusion hnone
  · intro h hnone
    constructor
    · have hnone' : heapGet h 3735928559 = none := by
        simpa [poisonAddr] using hnone
      simp [dlist_pop, deref, hnone', poisonAddr, Bind.bind, Except.bind,
        Pure.pure, Except.pure]
    · simp [dlist_destroy, poisonAddr]

/-- C3 witness: destroying a non-empty handle panics; popping a destroyed
handle (over the empty heap) faults. -/
theorem C3_destroy_witness :
    dlist_destroy { head := 5, tail := 0 } =
      .error (.fatal "dlist_destroy: root->head is non-null\n") ∧
    dlist_pop [] { head := poisonAddr, tail := poisonAddr } =
      .error .badDeref :=
  ⟨C3_destroy.1 { head := 5, tail := 0 } (Or.inl (by decide)),
    (C3_destroy.2.2.2.2 [] rfl).1⟩

/-- C4: in every state reachable from `init` through the public operations
(enqueue, push, pushback, pop, dequeue, remove-with-membership), the
handle's `head` is absent iff its `tail` is absent, and both are absent
exactly when the list holds no nodes. -/
theorem C4_head_tail_empty {h : Heap} {root : dlist_t} {l : List Addr}
    (hre : reachable h root l) :
    (root.head = 0 ↔ root.tail = 0) ∧ (root.head = 0 ↔ l = []) ∧
    (root.tail = 0 ↔ l = []) := by
  obtain ⟨hh, ht, hnz, _, _⟩ := reachable_rep hre
  have h1 : root.head = 0 ↔ l = [] := by
    rw [hh]
    rcases l with _ | ⟨a, rest⟩
    · simp
    · simp only [List.headD_cons]
      exact ⟨fun hE => absurd hE (hnz a (by simp)), fun hE => List.noConfusion hE⟩
  have h2 : root.tail = 0 ↔ l = [] := by
    rw [ht]
    rcases hl : l with _ | ⟨a, rest⟩
    · simp
    · constructor
      · intro hE
        exact absurd hE (hnz _ (hl ▸ getLastD_mem (a :: rest) 0 (by simp)))
      · exact fun hE => List.noConfusion hE
  exact ⟨h1.trans h2.symm, h1, h2⟩

/-- C4 witness: the invariant at the concrete reachable state obtained by
enqueueing node 1 (with garbage initial link fields) into a fresh list. -/
theorem C4_head_tail_empty_witness :
    ((({ head := 1, tail := 1 } : dlist_t).head = 0 ↔
        ({ head := 1, tail := 1 } : dlist_t).tail = 0) ∧
      (({ head := 1, tail := 1 } : dlist_t).head = 0 ↔ ([1] : List Addr) = []) ∧
      (({ head := 1, tail := 1 } : dlist_t).tail = 0 ↔ ([1] : List Addr) = [])) :=
  C4_head_tail_empty
    (reachable.enqueue 1 (reachable.init [(1, { next := 5, prev := 7 })])
      (by decide) (by simp) (by decide) rfl)

/-- C5: on every represented list, `enqueue` makes the fresh node the new
`head` (and also the `tail` when the list was empty, keeping the old `tail`
otherwise) and the represented list becomes `a :: l`; `pushback` makes it
the new `tail` (and also the `head` when the list was empty) and the list
becomes `l ++ [a]`; every heap cell other than the inserted node and the
affected old endpoint is unchanged, and the relative order of the existing
nodes is preserved. -/
theorem C5_insert_spec {h : Heap} {root : dlist_t} {l : List Addr} {a : Addr}
    {nd : dlist_node_t} (hr : rep h root l) (ha0 : a ≠ 0) (hal : a ∉ l)
    (hnd : heapGet h a = some nd) :
    (∃ h', dlist_enqueue h root a =
        .ok (h', { head := a, tail := if l = [] then a else root.tail }) ∧
      rep h' { head := a, tail := if l = [] then a else root.tail } (a :: l) ∧
      ∀ b, b ≠ a → b ≠ l.headD 0 → heapGet h' b = heapGet h b) ∧
    (∃ h', dlist_pushback h root a =
        .ok (h', { head := if l = [] then a else root.head, tail := a }) ∧
      rep h' { head := if l = [] then a else root.head, tail := a }
        (l ++ [a]) ∧
      ∀ b, b ≠ a → b ≠ l.getLastD 0 → heapGet h' b = heapGet h b) := by
  obtain ⟨h1, he1, hr1, hf1, _⟩ := enqueue_spec hr ha0 hal hnd
  obtain ⟨h2, he2, hr2, hf2, _⟩ := pushback_spec hr ha0 hal hnd
  exact ⟨⟨h1, he1, hr1, hf1⟩, ⟨h2, he2, hr2, hf2⟩⟩

/-- C5 witness: inserting node 1 into a fresh empty list, both ways. -/
theorem C5_insert_spec_witness :
    (∃ h', dlist_enqueue [(1, { next := 0, prev := 0 })] dlist_init 1 =
        .ok (h', { head := 1, tail := if ([] : List Addr) = [] then 1 else dlist_init.tail }) ∧
      rep h' { head := 1, tail := if ([] : List Addr) = [] then 1 else dlist_init.tail } [1] ∧
      ∀ b, b ≠ 1 → b ≠ ([] : List Addr).headD 0 →
        heapGet h' b = heapGet [(1, { next := 0, prev := 0 })] b) ∧
    (∃ h', dlist_pushback [(1, { next := 0, prev := 0 })] dlist_init 1 =
        .ok (h', { head := (if ([] : List Addr) = [] then 1 else dlist_init.head), tail := 1 }) ∧
      rep h' { head := (if ([] : List Addr) = [] then 1 else dlist_init.head), tail := 1 } ([] ++ [1]) ∧
      ∀ b, b ≠ 1 → b ≠ ([] : List Addr).getLastD 0 →
        heapGet h' b = heapGet [(1, { next := 0, prev := 0 })] b) :=
  C5_insert_spec (l := []) ⟨rfl, rfl, by simp, by simp, trivial⟩
    (by decide) (by simp) rfl

/-- C6: on a represented list of `n` nodes, if the reducer sets the
termination signal on the `k`-th visited record (`k ≤ n`), both the forward
and the backward fold invoke the reducer exactly `k` times and return the
accumulator produced by the `k`-th invocation; if the reducer never sets the
signal, both invoke it exactly `n` times.  Invocations are counted by
running the fold on the instrumented reducer `instr f`. -/
theorem C6_fold_termination {α : Type} {h : Heap} {root : dlist_t}
    {l : List Addr} (ofs : Nat) (f : Nat → α → α × Bool) (init : α) (k : Nat)
    (hr : rep h root l) :
    (firesAt f init (l.map (getContainer ofs)) k →
      dlist_typed_foldr ofs h root (instr f) (init, 0) =
        .ok (hitAcc f init (l.map (getContainer ofs)) k, k)) ∧
    (firesAt f init ((l.map (getContainer ofs)).reverse) k →
      dlist_typed_foldl ofs h root (instr f) (init, 0) =
        .ok (hitAcc f init ((l.map (getContainer ofs)).reverse) k, k)) ∧
    ((∀ i, i < l.length →
        flagAt f init (l.map (getContainer ofs)) i = false) →
      dlist_typed_foldr ofs h root (instr f) (init, 0) =
        .ok (accUpTo f init (l.map (getContainer ofs)) l.length,
          l.length)) ∧
    ((∀ i, i < l.length →
        flagAt f init ((l.map (getContainer ofs)).reverse) i = false) →
      dlist_typed_foldl ofs h root (instr f) (init, 0) =
        .ok (accUpTo f init ((l.map (getContainer ofs)).reverse) l.length,
          l.length)) := by
  have hlen1 : (l.map (getContainer ofs)).length = l.length :=
    List.length_map _ _
  have hlen2 : ((l.map (getContainer ofs)).reverse).length = l.length := by
    rw [List.length_reverse, hlen1]
  have he1 := @foldr_spec _ _ _ _ ofs (instr f) (init, 0) hr
  have he2 := @foldl_spec _ _ _ _ ofs (instr f) (init, 0) hr
  refine ⟨fun hf => ?_, fun hf => ?_, fun hn => ?_, fun hn => ?_⟩
  · rw [he1, stopFold_instr_fires f _ k init 0 hf, Nat.zero_add]
  · rw [he2, stopFold_instr_fires f _ k init 0 hf, Nat.zero_add]
  · rw [he1, stopFold_instr_never f _ init 0
      (fun i hi => hn i (hlen1 ▸ hi)), hlen1, Nat.zero_add]
  · rw [he2, stopFold_instr_never f _ init 0
      (fun i hi => hn i (hlen2 ▸ hi)), hlen2, Nat.zero_add]

/-- C6 witness: the reducer that fires on record 2 is invoked exactly twice
on the three-node chain 1 ↔ 2 ↔ 3, in both directions. -/
theorem C6_fold_termination_witness :
    (firesAt (fun x (_ : Nat) => (x, decide (x = 2))) 0
        ([1, 2, 3].map (getContainer 0)) 2 →
      dlist_typed_foldr 0
          [(1, { next := 2, prev := 0 }), (2, { next := 3, prev := 1 }),
            (3, { next := 0, prev := 2 })] { head := 1, tail := 3 }
          (instr (fun x (_ : Nat) => (x, decide (x = 2)))) (0, 0) =
        .ok (hitAcc (fun x (_ : Nat) => (x, decide (x = 2))) 0
          ([1, 2, 3].map (getContainer 0)) 2, 2)) ∧
    firesAt (fun x (_ : Nat) => (x, decide (x = 2))) 0
      ([1, 2, 3].map (getContainer 0)) 2 :=
  ⟨(C6_fold_termination (l := [1, 2, 3]) 0
      (fun x (_ : Nat) => (x, decide (x = 2))) 0 2 (by decide)).1,
    by decide⟩

/-- C7: on every non-empty represented list, the forward fold visits the
records in head-to-tail order, the backward fold visits them in tail-to-head
order (the exact reverse), and — the record addresses being pairwise
distinct — each record is visited exactly once. -/
theorem C7_traversal_orders {h : Heap} {root : dlist_t} {l : List Addr}
    (ofs : Nat) (hr : rep h root l) (_hne : l ≠ [])
    (haddr : ∀ a ∈ l, a < ptrSpace) :
    dlist_typed_foldr ofs h root collectRed [] =
      .ok (l.map (getContainer ofs)) ∧
    dlist_typed_foldl ofs h root collectRed [] =
      .ok ((l.map (getContainer ofs)).reverse) ∧
    (l.map (getContainer ofs)).Nodup := by
  refine ⟨?_, ?_, ?_⟩
  · rw [foldr_spec hr, stopFold_collect, List.nil_append]
  · rw [foldl_spec hr, stopFold_collect, List.nil_append]
  · exact hr.2.2.2.1.map_on
      (fun x hx y hy hE => getContainer_injOn (haddr x hx) (haddr y hy) hE)

/-- C7 witness: the chain 100 ↔ 200 ↔ 300 with link-field offset 4 is
traversed as `[96, 196, 296]` forward and `[296, 196, 96]` backward. -/
theorem C7_traversal_orders_witness :
    dlist_typed_foldr 4
        [(100, { next := 200, prev := 0 }), (200, { next := 300, prev := 100 }),
          (300, { next := 0, prev := 200 })] { head := 100, tail := 300 }
        collectRed [] =
      .ok ([100, 200, 300].map (getContainer 4)) ∧
    dlist_typed_foldl 4
        [(100, { next := 200, prev := 0 }), (200, { next := 300, prev := 100 }),
          (300, { next := 0, prev := 200 })] { head := 100, tail := 300 }
        collectRed [] =
      .ok (([100, 200, 300].map (getContainer 4)).reverse) ∧
    ([100, 200, 300].map (getContainer 4)).Nodup := by
  exact C7_traversal_orders (l := [100, 200, 300]) 4 (by decide) (by decide)
    (by decide)

/-- C8 (concrete scenario B): from `init`, after `pushback` of the records
valued 1..20 in order, `pop` returns record 1, a subsequent `dequeue`
returns record 20, and the remaining list represents exactly the 18 records
2..19 with `head` 2 and `tail` 19. -/
theorem C8_scenarioB :
    ∃ h₁ root₁ h₂ root₂ h₃ root₃,
      pushbackAll ((List.range' 1 20).map
          (fun i => (i, { next := 0, prev := 0 }))) dlist_init
          (List.range' 1 20) = .ok (h₁, root₁) ∧
      dlist_pop h₁ root₁ = .ok (1, h₂, root₂) ∧
      dlist_dequeue h₂ root₂ = .ok (20, h₃, root₃) ∧
      dlist_head root₃ = 2 ∧ dlist_tail root₃ = 19 ∧
      rep h₃ root₃
        [2, 3, 4, 5, 6, 7, 8, 9, 10, 11, 12, 13, 14, 15, 16, 17, 18, 19] ∧
      ([2, 3, 4, 5, 6, 7, 8, 9, 10, 11, 12, 13, 14, 15, 16, 17, 18, 19] :
        List Addr).length = 18 := by
  refine ⟨_, _, _, _, _, _, rfl, rfl, rfl, rfl, rfl, by decide, rfl⟩

/-- C9: the checker `dlist_check` never aborts — none of its assertions fail, and it
returns normally — on any state reachable solely through the public
operations from `init`. -/
theorem C9_check_reachable {h : Heap} {root : dlist_t} {l : List Addr}
    (hre : reachable h root l) : dlist_check h root = .ok () :=
  check_spec (reachable_rep hre)

/-- C9 witness: the checker succeeds on the state reached by enqueueing nodes 1
then 2 (allocated with garbage link fields) into a fresh list. -/
theorem C9_check_reachable_witness :
    dlist_check
      [(1, { next := 0, prev := 2 }), (2, { next := 1, prev := 0 }),
        (2, { next := 9, prev := 0 }), (1, { next := 0, prev := 0 }),
        (1, { next := 5, prev := 0 }), (1, { next := 5, prev := 7 }),
        (2, { next := 9, prev := 9 })] { head := 2, tail := 1 } = .ok () := by
  refine C9_check_reachable (l := [2, 1]) ?_
  exact reachable.enqueue 2
    (reachable.enqueue 1
      (reachable.init [(1, { next := 5, prev := 7 }),
        (2, { next := 9, prev := 9 })])
      (by decide) (by decide) (by decide) rfl)
    (by decide) (by decide) (by decide) rfl

/-- C10: every removal operation leaves the removed node's own `next` and
`prev` fields exactly as they were — `pop` writes only the new head's
`prev`, `dequeue` only the new tail's `next`, and `remove` only the two
neighbours' links (besides the handle) — so a just-removed node still holds
its references into the list. -/
theorem C10_removal_frame {h : Heap} {root : dlist_t} {l : List Addr}
    (hr : rep h root l) :
    (∀ x rest, l = x :: rest →
      ∃ h' root', dlist_pop h root = .ok (x, h', root') ∧
        heapGet h' x = heapGet h x ∧
        ∀ b, b ≠ rest.headD 0 → heapGet h' b = heapGet h b) ∧
    (∀ fore x, l = fore ++ [x] →
      ∃ h' root', dlist_dequeue h root = .ok (x, h', root') ∧
        heapGet h' x = heapGet h x ∧
        ∀ b, b ≠ fore.getLastD 0 → heapGet h' b = heapGet h b) ∧
    (∀ a, a ∈ l →
      ∃ h' root' nx pv, dlist_remove h root a = .ok (h', root') ∧
        heapGet h a = some { next := nx, prev := pv } ∧
        heapGet h' a = heapGet h a ∧
        ∀ b, b ≠ pv → b ≠ nx → heapGet h' b = heapGet h b) := by
  refine ⟨?_, ?_, ?_⟩
  · intro x rest hl
    subst hl
    obtain ⟨h', heq, _, hx, hfr⟩ := pop_spec hr
    exact ⟨h', _, heq, hx, hfr⟩
  · intro fore x hl
    subst hl
    obtain ⟨h', heq, _, hx, hfr⟩ := dequeue_spec hr
    exact ⟨h', _, heq, hx, hfr⟩
  · intro a hmem
    obtain ⟨h', root', nx, pv, heq, _, hga, hx, hfr⟩ := remove_spec hr hmem
    exact ⟨h', root', nx, pv, heq, hga, hx, hfr⟩

/-- C10 witness: removing the middle node 2 of the chain 1 ↔ 2 ↔ 3 leaves
node 2's own links (`next = 3`, `prev = 1`) untouched. -/
theorem C10_removal_frame_witness :
    ∃ h' root' nx pv,
      dlist_remove [(1, { next := 2, prev := 0 }), (2, { next := 3, prev := 1 }),
          (3, { next := 0, prev := 2 })] { head := 1, tail := 3 } 2 =
        .ok (h', root') ∧
      heapGet [(1, { next := 2, prev := 0 }), (2, { next := 3, prev := 1 }),
          (3, { next := 0, prev := 2 })] 2 = some { next := nx, prev := pv } ∧
      heapGet h' 2 =
        heapGet [(1, { next := 2, prev := 0 }), (2, { next := 3, prev := 1 }),
          (3, { next := 0, prev := 2 })] 2 ∧
      ∀ b, b ≠ pv → b ≠ nx →
        heapGet h' b =
          heapGet [(1, { next := 2, prev := 0 }), (2, { next := 3, prev := 1 }),
            (3, { next := 0, prev := 2 })] b :=
  (C10_removal_frame (l := [1, 2, 3]) (by decide)).2.2 2 (by decide)

end DList
